import Mathlib

/-!
Verification of the keyword relevance classifier and keyword suggester of
`src/filter.py` (functions `is_relevant_entry` and `extract_potential_keywords`).

Text is modelled as `List Char`; Python string operations are translated to
their ASCII semantics, which agree with Python's on the ASCII inputs handled
here.  A pandas field value is `Option (List Char)`: `none` models a missing
cell (pandas `NaN`).  Keyword collections are modelled as `List (List Char)`;
the source iterates them, and the boolean results only depend on membership.
-/

/-- Python `text.lower()` on ASCII text, as applied by both
`contains_exact_exclusion`, `contains_inclusion` and the tokenizer. -/
def pyLower (l : List Char) : List Char := l.map Char.toLower

/-- The space padding `f" {x} "` used by `contains_exact_exclusion` for both
the field text and each exclusion phrase. -/
def padSpaces (l : List Char) : List Char := ' ' :: (l ++ [' '])

/-- Python `str.strip()`: remove whitespace from both ends. -/
def pyStrip (l : List Char) : List Char :=
  ((l.dropWhile Char.isWhitespace).reverse.dropWhile Char.isWhitespace).reverse

/-- Python substring containment `needle in hay` for strings. -/
def inStr (needle : List Char) : List Char → Bool
  | [] => needle.isPrefixOf []
  | c :: rest => needle.isPrefixOf (c :: rest) || inStr needle rest

/-- Python `str(x)` applied to a pandas cell, as done by `is_relevant_entry`
(`str(headline)`, `str(position)`): a present cell is the string itself; a
missing cell is `float('nan')`, and `str(float('nan'))` is the text `nan`. -/
def pyStr : Option (List Char) → List Char
  | none => ("nan").data
  | some s => s

/-- `contains_exact_exclusion` from `src/filter.py` (closure over
`exclusion_keywords` inside `is_relevant_entry`): pad the lowercased text with
single spaces; an exclusion phrase matches if its space-padded form is a
substring of the padded text, or the stripped text equals the phrase.  The
early-returning `for` loop is `List.any`. -/
def contains_exact_exclusion (exclusion_keywords : List (List Char))
    (text0 : List Char) : Bool :=
  let text := padSpaces (pyLower text0)
  exclusion_keywords.any (fun ex_kw => inStr (padSpaces ex_kw) text || pyStrip text == ex_kw)

/-- `contains_inclusion` from `src/filter.py`: plain substring containment of
any keyword in the lowercased text. -/
def contains_inclusion (keywords : List (List Char)) (text0 : List Char) : Bool :=
  let text := pyLower text0
  keywords.any (fun kw => inStr kw text)

/-- `is_relevant_entry(headline, position, keywords, exclusion_keywords)` from
`src/filter.py`. -/
def is_relevant_entry (headline position : Option (List Char))
    (keywords exclusion_keywords : List (List Char)) : Bool :=
  if contains_exact_exclusion exclusion_keywords (pyStr headline)
      || contains_exact_exclusion exclusion_keywords (pyStr position) then
    false
  else
    contains_inclusion keywords (pyStr headline)
      || contains_inclusion keywords (pyStr position)

/-- Word characters of the regex word boundary `\b` (the class `\w`), in the
ASCII range relevant here: letters, digits and underscore. -/
def isWordChar (c : Char) : Bool := c.isAlpha || c.isDigit || c == '_'

/-- Left-to-right scan implementing `re.findall(r'\b[a-zA-Z]{3,}\b', text)`.
The state is either `Sum.inl prevWord` (not inside a candidate match;
`prevWord` records whether the previous character was a `\w` character, so
that `\b` can be tested), or `Sum.inr run` (inside a run of letters that
started at a word boundary, accumulated in reverse).  A run is emitted when it
ends at a word boundary (end of text or a non-`\w` character) with length at
least 3; a run followed by a digit or underscore fails the trailing `\b` and
is discarded, exactly as the regex engine does. -/
def scanStep : List Char → Bool ⊕ List Char → List (List Char)
  | [], Sum.inl _ => []
  | [], Sum.inr run => if 3 ≤ run.length then [run.reverse] else []
  | c :: rest, Sum.inl prevWord =>
    if c.isAlpha && !prevWord then scanStep rest (Sum.inr [c])
    else scanStep rest (Sum.inl (isWordChar c))
  | c :: rest, Sum.inr run =>
    if c.isAlpha then scanStep rest (Sum.inr (c :: run))
    else if isWordChar c then scanStep rest (Sum.inl true)
    else (if 3 ≤ run.length then [run.reverse] else []) ++ scanStep rest (Sum.inl false)

/-- `re.findall(r'\b[a-zA-Z]{3,}\b', text)`: at the start of the text the
scanner is outside any match and the position is a word boundary. -/
def pyFindTokens (text : List Char) : List (List Char) := scanStep text (Sum.inl false)

/-- The token-gathering loop of `extract_potential_keywords`:
`for text in text_series.dropna(): all_tokens.extend(re.findall(..., text.lower()))`.
`dropna` drops missing rows (`List.filterMap id`). -/
def allTokens (rows : List (Option (List Char))) : List (List Char) :=
  ((rows.filterMap id).map (fun text => pyFindTokens (pyLower text))).flatten

/-- One `Counter` update: increment the count of `w` if present (in place),
else append `(w, 1)`.  Python dicts preserve first-insertion order of keys. -/
def bumpCount (w : List Char) : List (List Char × Nat) → List (List Char × Nat)
  | [] => [(w, 1)]
  | q :: rest => if q.1 = w then (q.1, q.2 + 1) :: rest else q :: bumpCount w rest

/-- `collections.Counter(all_tokens)` as an association list whose keys are in
first-occurrence order. -/
def countTokens (ts : List (List Char)) : List (List Char × Nat) :=
  ts.foldl (fun acc w => bumpCount w acc) []

/-- The fixed stopword set of `extract_potential_keywords`. -/
def stopwords : List (List Char) :=
  [("and").data, ("the").data, ("for").data, ("with").data, ("from").data, ("this").data,
   ("that").data, ("you").data, ("are").data, ("have").data, ("has").data, ("not").data,
   ("all").data, ("any").data, ("can").data, ("but").data, ("out").data, ("via").data,
   ("its").data, ("his").data, ("her").data, ("our").data, ("your").data, ("they").data,
   ("them").data, ("on").data, ("at").data, ("in").data, ("to").data, ("by").data,
   ("of").data, ("is").data, ("as").data, ("an").data, ("or").data, ("be").data,
   ("a").data, ("we").data, ("i").data, ("it").data]

/-- The dict comprehension of `extract_potential_keywords`: keep counted
tokens that are not existing keywords, not stopwords, and have count `> 1`;
iteration order of `counts.items()` is key-insertion order. -/
def suggestionList (rows : List (Option (List Char)))
    (existing_keywords : List (List Char)) : List (List Char × Nat) :=
  (countTokens (allTokens rows)).filter
    (fun q => !(existing_keywords.contains q.1) && !(stopwords.contains q.1) && decide (1 < q.2))

/-- Stable insertion of a pair into a list, placing it before the first entry
whose count is not larger: used to model Python's stable
`sorted(..., key=lambda x: x[1], reverse=True)`. -/
def insertDesc (p : List Char × Nat) : List (List Char × Nat) → List (List Char × Nat)
  | [] => [p]
  | q :: rest => if p.2 < q.2 then q :: insertDesc p rest else p :: q :: rest

/-- Stable sort by strictly decreasing count (ties keep input order), the
semantics of Python's `sorted(suggestions.items(), key=lambda x: x[1],
reverse=True)`. -/
def sortDesc : List (List Char × Nat) → List (List Char × Nat)
  | [] => []
  | p :: rest => insertDesc p (sortDesc rest)

/-- `extract_potential_keywords(text_series, existing_keywords)` from
`src/filter.py`; the returned dict is the ordered list of its items
(`[:25]` keeps the first 25 sorted entries). -/
def extract_potential_keywords (rows : List (Option (List Char)))
    (existing_keywords : List (List Char)) : List (List Char × Nat) :=
  (sortDesc (suggestionList rows existing_keywords)).take 25

/-! ### Bridging lemmas for the classifier -/

/-- The Python substring test agrees with `List.IsInfix`. -/
theorem inStr_iff (needle hay : List Char) : inStr needle hay = true ↔ needle <:+: hay := by
  induction hay with
  | nil => simp [inStr, List.isPrefixOf_iff_prefix]
  | cons c rest ih =>
    rw [inStr]
    simp [List.isPrefixOf_iff_prefix, ih, List.infix_cons_iff]

/-- Stripping the space-padded text is the same as stripping the text. -/
theorem pyStrip_padSpaces (l : List Char) : pyStrip (padSpaces l) = pyStrip l := by
  have hsp : Char.isWhitespace ' ' = true := by decide
  unfold pyStrip padSpaces
  rw [List.dropWhile_cons_of_pos hsp, List.dropWhile_append]
  rcases hdw : l.dropWhile Char.isWhitespace with _ | ⟨d, ds⟩
  · simp
  · rw [if_neg (by simp)]
    rw [List.reverse_append]
    simp [List.dropWhile_cons_of_pos hsp]

/-- The padded-substring test of `contains_exact_exclusion` succeeds exactly
when the phrase occurs in the text delimited on each side by a space or by an
end of the text. -/
theorem padSpaces_infix_iff (e t : List Char) :
    padSpaces e <:+: padSpaces t ↔
      ∃ pre post, t = pre ++ e ++ post ∧
        (pre = [] ∨ pre.getLast? = some ' ') ∧
        (post = [] ∨ post.head? = some ' ') := by
  constructor
  · rintro ⟨s, u, h⟩
    rcases s with _ | ⟨s₀, s'⟩
    · simp only [padSpaces, List.nil_append, List.cons_append, List.cons.injEq,
        true_and] at h
      rcases List.eq_nil_or_concat u with rfl | ⟨L, b, rfl⟩
      · rw [List.append_nil] at h
        have := List.append_cancel_right h
        exact ⟨[], [], by simp [this], Or.inl rfl, Or.inl rfl⟩
      · rw [List.concat_eq_append, ← List.append_assoc] at h
        obtain ⟨h1, h2⟩ := List.append_inj' h (by simp)
        have hb : b = ' ' := by simpa using h2
        refine ⟨[], ' ' :: L, ?_, Or.inl rfl, Or.inr rfl⟩
        simp [← h1]
    · simp only [padSpaces, List.cons_append, List.cons.injEq] at h
      obtain ⟨rfl, h⟩ := h
      rcases List.eq_nil_or_concat u with rfl | ⟨L, b, rfl⟩
      · -- h : s' ++ ' ' :: (e ++ [' ']) = t ++ [' ']
        have h' : (s' ++ [' '] ++ e) ++ [' '] = t ++ [' '] := by
          simpa [List.append_assoc] using h
        have := List.append_cancel_right h'
        refine ⟨s' ++ [' '], [], by simp [← this], Or.inr (List.getLast?_concat _), Or.inl rfl⟩
      · rw [List.concat_eq_append] at h
        have h' : (s' ++ [' '] ++ e ++ [' '] ++ L) ++ [b] = t ++ [' '] := by
          simpa [List.append_assoc] using h
        obtain ⟨h1, h2⟩ := List.append_inj' h' (by simp)
        have hb : b = ' ' := by simpa using h2
        refine ⟨s' ++ [' '], ' ' :: L, ?_, Or.inr (List.getLast?_concat _), Or.inr rfl⟩
        simp [← h1, List.append_assoc]
  · rintro ⟨pre, post, rfl, hpre, hpost⟩
    rcases hpre with rfl | hpre
    · rcases hpost with rfl | hpost
      · simp [List.infix_rfl]
      · rcases post with _ | ⟨p₀, p'⟩
        · simp at hpost
        · have hp : p₀ = ' ' := by simpa using hpost
          subst hp
          exact ⟨[], p' ++ [' '], by simp [padSpaces]⟩
    · rcases List.eq_nil_or_concat pre with rfl | ⟨L, b, rfl⟩
      · simp at hpre
      · rw [List.concat_eq_append] at hpre ⊢
        rw [List.getLast?_concat] at hpre
        have hb : b = ' ' := by simpa using hpre
        subst hb
        rcases hpost with rfl | hpost
        · exact ⟨' ' :: L, [], by simp [padSpaces, List.append_assoc]⟩
        · rcases post with _ | ⟨p₀, p'⟩
          · simp at hpost
          · have hp : p₀ = ' ' := by simpa using hpost
            subst hp
            exact ⟨' ' :: L, p' ++ [' '], by simp [padSpaces, List.append_assoc]⟩

/-- A single matching exclusion keyword makes `contains_exact_exclusion` true. -/
theorem contains_exact_exclusion_of_match (E : List (List Char)) (f e : List Char)
    (heE : e ∈ E)
    (hm : padSpaces e <:+: padSpaces (pyLower f) ∨ pyStrip (pyLower f) = e) :
    contains_exact_exclusion E f = true := by
  simp only [contains_exact_exclusion]
  refine List.any_eq_true.2 ⟨e, heE, ?_⟩
  rcases hm with hinf | heq
  · simp [(inStr_iff _ _).2 hinf]
  · rw [pyStrip_padSpaces, heq]
    simp

/-- If no exclusion keyword matches the field (neither space-padded substring
nor trimmed equality), `contains_exact_exclusion` is false. -/
theorem contains_exact_exclusion_eq_false (E : List (List Char)) (f : List Char)
    (hm : ∀ e ∈ E, ¬ (padSpaces e <:+: padSpaces (pyLower f)) ∧ pyStrip (pyLower f) ≠ e) :
    contains_exact_exclusion E f = false := by
  simp only [contains_exact_exclusion]
  refine List.any_eq_false.2 (fun e heE => ?_)
  obtain ⟨hinf, hne⟩ := hm e heE
  simp only [Bool.or_eq_true, not_or]
  constructor
  · intro hcontra
    exact hinf ((inStr_iff _ _).1 hcontra)
  · rw [pyStrip_padSpaces]
    simp only [beq_iff_eq]
    exact hne

/-- A single inclusion keyword that is a substring of the lowercased field
makes `contains_inclusion` true. -/
theorem contains_inclusion_of_mem (I : List (List Char)) (f kw : List Char)
    (hkw : kw ∈ I) (hinf : kw <:+: pyLower f) : contains_inclusion I f = true := by
  simp only [contains_inclusion]
  exact List.any_eq_true.2 ⟨kw, hkw, (inStr_iff _ _).2 hinf⟩

/-- If no inclusion keyword is a substring of the lowercased field,
`contains_inclusion` is false. -/
theorem contains_inclusion_eq_false (I : List (List Char)) (f : List Char)
    (h : ∀ kw ∈ I, ¬ (kw <:+: pyLower f)) : contains_inclusion I f = false := by
  simp only [contains_inclusion]
  refine List.any_eq_false.2 (fun kw hkw hcontra => ?_)
  exact h kw hkw ((inStr_iff _ _).1 hcontra)

/-! ### Claim C1 -/

/-- Claim C1: if some exclusion keyword matches either field — the
space-padded phrase occurs as a substring of the space-padded lowercased
field, or the lowercased field trimmed of surrounding whitespace equals the
phrase — then `is_relevant_entry` returns false, whatever the inclusion
keyword set is. -/
theorem is_relevant_entry_excluded (h p : Option (List Char))
    (I E : List (List Char))
    (hx : ∃ e ∈ E,
      (padSpaces e <:+: padSpaces (pyLower (pyStr h)) ∨ pyStrip (pyLower (pyStr h)) = e) ∨
      (padSpaces e <:+: padSpaces (pyLower (pyStr p)) ∨ pyStrip (pyLower (pyStr p)) = e)) :
    is_relevant_entry h p I E = false := by
  have hex : (contains_exact_exclusion E (pyStr h)
      || contains_exact_exclusion E (pyStr p)) = true := by
    obtain ⟨e, heE, hcase⟩ := hx
    rcases hcase with hc | hc
    · simp [contains_exact_exclusion_of_match E _ e heE hc]
    · simp [contains_exact_exclusion_of_match E _ e heE hc]
  simp [is_relevant_entry, hex]

/-- Witness for C1 at a concrete input. -/
theorem is_relevant_entry_excluded_witness :
    is_relevant_entry (some (("senior java dev").data)) (some ([]))
      [(("dev").data)] [(("java").data)] = false :=
  is_relevant_entry_excluded _ _ _ _
    ⟨(("java").data), by decide, Or.inl (Or.inl (by decide))⟩

/-! ### Claim C2 -/

/-- Claim C2: inclusion is plain case-insensitive substring matching while
exclusion is space-boundary-padded, shown on the three spec examples; the last
two conjuncts exhibit the reason: the padded phrase does not occur in the
padded field, while the raw substring does. -/
theorem inclusion_substring_exclusion_boundary_examples :
    is_relevant_entry (some (("Java Developer").data)) (some ([]))
      [(("java").data)] [] = true ∧
    is_relevant_entry (some (("JavaScript Engineer").data)) (some ([]))
      [(("java").data)] [] = true ∧
    is_relevant_entry (some (("javascript engineer").data)) (some ([]))
      [(("java").data)] [(("java").data)] = true ∧
    inStr (padSpaces (("java").data)) (padSpaces (pyLower (("javascript engineer").data))) = false ∧
    inStr (("java").data) (pyLower (("javascript engineer").data)) = true := by decide

/-! ### Claim C3 -/

/-- Claim C3: if no exclusion keyword matches either field and no inclusion
keyword occurs as a substring of either lowercased field, `is_relevant_entry`
returns false; in particular with an empty inclusion set every record fails. -/
theorem not_included_fails :
    (∀ (h p : Option (List Char)) (I E : List (List Char)),
      (∀ e ∈ E,
        (¬ (padSpaces e <:+: padSpaces (pyLower (pyStr h)))) ∧ pyStrip (pyLower (pyStr h)) ≠ e ∧
        (¬ (padSpaces e <:+: padSpaces (pyLower (pyStr p)))) ∧ pyStrip (pyLower (pyStr p)) ≠ e) →
      (∀ kw ∈ I, (¬ (kw <:+: pyLower (pyStr h))) ∧ ¬ (kw <:+: pyLower (pyStr p))) →
      is_relevant_entry h p I E = false) ∧
    (∀ (h p : Option (List Char)) (E : List (List Char)),
      is_relevant_entry h p [] E = false) := by
  constructor
  · intro h p I E hE hI
    have hh : contains_exact_exclusion E (pyStr h) = false :=
      contains_exact_exclusion_eq_false E _ (fun e he => ⟨(hE e he).1, (hE e he).2.1⟩)
    have hp : contains_exact_exclusion E (pyStr p) = false :=
      contains_exact_exclusion_eq_false E _ (fun e he => ⟨(hE e he).2.2.1, (hE e he).2.2.2⟩)
    have hih : contains_inclusion I (pyStr h) = false :=
      contains_inclusion_eq_false I _ (fun kw hkw => (hI kw hkw).1)
    have hip : contains_inclusion I (pyStr p) = false :=
      contains_inclusion_eq_false I _ (fun kw hkw => (hI kw hkw).2)
    simp [is_relevant_entry, hh, hp, hih, hip]
  · intro h p E
    simp [is_relevant_entry, contains_inclusion]

/-- Witness for C3 at a concrete input. -/
theorem not_included_fails_witness :
    is_relevant_entry (some (("ceo").data)) (some ([]))
      [(("java").data)] [(("hr").data)] = false :=
  not_included_fails.1 _ _ _ _ (by decide) (by decide)

/-! ### Claim C4 (corrected) -/

/-- Counterexample to C4 as stated: a missing field is stringified by
`str(float('nan'))` to the text `nan`, so with inclusion keyword `nan` a
record whose headline is missing passes the filter — the missing field does
trigger an inclusion match. -/
theorem missing_field_triggers_nan_inclusion :
    is_relevant_entry none (some ([])) [(("nan").data)] [] = true ∧
    contains_inclusion [(("nan").data)] (pyStr none) = true := by decide

/-- Claim C4 as amended: for non-empty keywords an empty field never triggers
an exclusion or an inclusion match, and a record with two empty fields is
classified not relevant; a missing field never raises but is stringified to
the text `nan`, behaving exactly like a field holding that text. -/
theorem empty_and_missing_fields :
    (∀ E : List (List Char), (∀ e ∈ E, e ≠ []) →
      contains_exact_exclusion E [] = false) ∧
    (∀ I : List (List Char), (∀ kw ∈ I, kw ≠ []) →
      contains_inclusion I [] = false) ∧
    (∀ I E : List (List Char), (∀ kw ∈ I, kw ≠ []) →
      is_relevant_entry (some ([])) (some ([])) I E = false) ∧
    (∀ (p : Option (List Char)) (I E : List (List Char)),
      is_relevant_entry none p I E = is_relevant_entry (some (("nan").data)) p I E) := by
  have hexcl : ∀ E : List (List Char), (∀ e ∈ E, e ≠ []) →
      contains_exact_exclusion E [] = false := by
    intro E hE
    apply contains_exact_exclusion_eq_false
    intro e he
    constructor
    · intro hinf
      have hlen := hinf.length_le
      simp only [padSpaces, pyLower, List.map_nil, List.nil_append, List.length_cons,
        List.length_append, List.length_nil, List.length_singleton] at hlen
      exact hE e he (List.eq_nil_of_length_eq_zero (by omega))
    · intro heq
      exact hE e he (by simpa [pyLower, pyStrip] using heq.symm)
  have hincl : ∀ I : List (List Char), (∀ kw ∈ I, kw ≠ []) →
      contains_inclusion I [] = false := by
    intro I hI
    apply contains_inclusion_eq_false
    intro kw hkw hinf
    exact hI kw hkw (by simpa [pyLower] using hinf)
  refine ⟨hexcl, hincl, ?_, ?_⟩
  · intro I E hI
    have h1 : contains_inclusion I (pyStr (some [])) = false := hincl I hI
    simp only [is_relevant_entry, h1, Bool.or_self]
    exact ite_self false
  · intro p I E
    rfl

/-- Witness for the hypotheses of the amended C4. -/
theorem empty_and_missing_fields_witness :
    contains_exact_exclusion [(("x").data)] [] = false ∧
    is_relevant_entry (some ([])) (some ([])) [(("x").data)] [(("y").data)] = false :=
  ⟨empty_and_missing_fields.1 _ (by decide),
   empty_and_missing_fields.2.2.1 _ _ (by decide)⟩

/-! ### Claim C5 -/

/-- Claim C5: there is a multi-word exclusion phrase and a field where the
phrase occurs at the very start of the field's text, yet the boundary-padding
exclusion logic does not trigger (here the phrase is followed by a comma), so
the record is not excluded. -/
theorem multiword_exclusion_boundary_miss :
    (' ' ∈ (("senior engineer").data)) ∧
    ((("senior engineer").data) <+: (("senior engineer, remote").data)) ∧
    contains_exact_exclusion [(("senior engineer").data)]
      (("senior engineer, remote").data) = false ∧
    is_relevant_entry (some (("senior engineer, remote").data)) (some ([]))
      [(("engineer").data)] [(("senior engineer").data)] = true := by decide

/-! ### Claim C9 -/

/-- Claim C9: if the empty string is an inclusion keyword, every record that
is not rejected by the exclusion check passes, since the empty string is a
substring of every string. -/
theorem empty_inclusion_keyword_matches_all (h p : Option (List Char))
    (I E : List (List Char)) (hI : [] ∈ I)
    (hh : contains_exact_exclusion E (pyStr h) = false)
    (hp : contains_exact_exclusion E (pyStr p) = false) :
    is_relevant_entry h p I E = true := by
  have hinc : contains_inclusion I (pyStr h) = true :=
    contains_inclusion_of_mem I _ [] hI List.nil_infix
  simp [is_relevant_entry, hh, hp, hinc]

/-- Witness for C9: both fields empty, inclusion set containing the empty
string. -/
theorem empty_inclusion_keyword_matches_all_witness :
    is_relevant_entry (some ([])) (some ([])) [([] : List Char)] [] = true :=
  empty_inclusion_keyword_matches_all _ _ _ _ (by decide) (by decide) (by decide)

/-! ### Claim C10 (corrected) -/

/-- Counterexample to C10 as stated: the exclusion keyword `java` occurs in
the field `java, java engineer` directly followed by a comma (a non-space,
non-alphanumeric character) and the trimmed field differs from the keyword,
yet `contains_exact_exclusion` returns true, because the keyword also occurs
space-delimited later in the field. -/
theorem punctuation_adjacent_exclusion_counterexample :
    ((("java, java engineer").data) = (("java").data) ++ (',' :: ((" java engineer").data))) ∧
    (','.isAlphanum = false) ∧ (',' ≠ ' ') ∧
    pyStrip (pyLower (("java, java engineer").data)) ≠ (("java").data) ∧
    contains_exact_exclusion [(("java").data)] (("java, java engineer").data) = true := by
  decide

/-- Claim C10 as amended: if no occurrence of the exclusion keyword in the
lowercased field is delimited on both sides by a space or an end of the text
(in particular when its occurrences are directly adjacent to punctuation),
and the trimmed field is not exactly the keyword, then
`contains_exact_exclusion` returns false — single-space padding, not true
word boundaries. -/
theorem punctuation_adjacent_exclusion_no_match (e text : List Char)
    (hocc : ∀ pre post, pyLower text = pre ++ e ++ post →
        ¬ ((pre = [] ∨ pre.getLast? = some ' ') ∧ (post = [] ∨ post.head? = some ' ')))
    (hne : pyStrip (pyLower text) ≠ e) :
    contains_exact_exclusion [e] text = false := by
  apply contains_exact_exclusion_eq_false
  intro e' he'
  have he : e' = e := by simpa using he'
  refine ⟨?_, ?_⟩
  · intro hinf
    rw [he] at hinf
    obtain ⟨pre, post, hdec, hpre, hpost⟩ := (padSpaces_infix_iff e (pyLower text)).1 hinf
    exact hocc pre post hdec ⟨hpre, hpost⟩
  · rw [he]
    exact hne

/-- Witness for the amended C10 on the spec's example field. -/
theorem punctuation_adjacent_exclusion_no_match_witness :
    contains_exact_exclusion [(("java").data)] (("senior java, engineer").data) = false :=
  punctuation_adjacent_exclusion_no_match _ _
    (fun pre post hdec hb =>
      absurd ((padSpaces_infix_iff _ _).2 ⟨pre, post, hdec, hb.1, hb.2⟩) (by decide))
    (by decide)

/-! ### Character-level facts about lowercasing -/

/-- Comparison of `UInt32` values is comparison of their numerals. -/
theorem uint32_le_iff (a b : UInt32) : a ≤ b ↔ a.toNat ≤ b.toNat := by
  rw [UInt32.le_def, BitVec.le_def]
  exact Iff.rfl

/-- `Char.ofNat` of a valid scalar value has that value. -/
theorem char_toNat_ofNat_valid {n : Nat} (h : n.isValidChar) : (Char.ofNat n).toNat = n := by
  rw [Char.ofNat, dif_pos h]
  simp [Char.ofNatAux, Char.toNat, UInt32.toNat]

/-- `Char.isUpper` in terms of the scalar value. -/
theorem char_isUpper_iff (c : Char) : c.isUpper = true ↔ 65 ≤ c.toNat ∧ c.toNat ≤ 90 := by
  simp only [Char.isUpper, Bool.and_eq_true, decide_eq_true_eq, ge_iff_le]
  rw [uint32_le_iff, uint32_le_iff]
  constructor
  · rintro ⟨h1, h2⟩
    exact ⟨by simpa using h1, by simpa using h2⟩
  · rintro ⟨h1, h2⟩
    exact ⟨by simpa using h1, by simpa using h2⟩

/-- Lowercasing never produces an upper-case letter. -/
theorem char_toLower_isUpper_false (c : Char) : (Char.toLower c).isUpper = false := by
  simp only [Char.toLower]
  split
  · next h =>
    rw [Bool.eq_false_iff]
    intro hcontra
    rw [char_isUpper_iff] at hcontra
    rw [char_toNat_ofNat_valid (Or.inl (by omega))] at hcontra
    omega
  · next h =>
    rw [Bool.eq_false_iff]
    intro hcontra
    rw [char_isUpper_iff] at hcontra
    exact h ⟨hcontra.1, hcontra.2⟩

/-! ### Soundness and completeness of the tokenizer scan -/

/-- The text that the current scanner state contributes in front of the
remaining input. -/
def stPrefix : Bool ⊕ List Char → List Char
  | Sum.inl _ => []
  | Sum.inr run => run.reverse

/-- Every token emitted by the scan is a run of at least 3 letters occurring
inside the scanned text. -/
theorem scanStep_sound (l : List Char) :
    ∀ (st : Bool ⊕ List Char), (∀ r, st = Sum.inr r → ∀ c ∈ r, c.isAlpha = true) →
    ∀ t ∈ scanStep l st,
      3 ≤ t.length ∧ (∀ c ∈ t, c.isAlpha = true) ∧ t <:+: (stPrefix st ++ l) := by
  induction l with
  | nil =>
    intro st hst t ht
    cases st with
    | inl b => simp [scanStep] at ht
    | inr run =>
      simp only [scanStep] at ht
      split at ht
      · next hlen =>
        rw [List.mem_singleton] at ht
        subst ht
        refine ⟨by simpa using hlen, ?_, ?_⟩
        · intro c hc
          exact hst run rfl c (List.mem_reverse.1 hc)
        · simp [stPrefix]
      · simp at ht
  | cons c rest ih =>
    intro st hst t ht
    cases st with
    | inl b =>
      simp only [scanStep] at ht
      split at ht
      · next hcb =>
        have hca : c.isAlpha = true := by
          simp only [Bool.and_eq_true] at hcb
          exact hcb.1
        have := ih (Sum.inr [c]) (by
          intro r hr c' hc'
          cases hr
          rw [List.mem_singleton] at hc'
          subst hc'
          exact hca) t ht
        refine ⟨this.1, this.2.1, ?_⟩
        have h3 := this.2.2
        simpa [stPrefix] using h3
      · have := ih (Sum.inl (isWordChar c)) (by intro r hr; cases hr) t ht
        refine ⟨this.1, this.2.1, ?_⟩
        have h3 := this.2.2
        simp only [stPrefix, List.nil_append] at h3 ⊢
        exact h3.trans (List.suffix_cons c rest).isInfix
    | inr run =>
      simp only [scanStep] at ht
      split at ht
      · next hca =>
        have := ih (Sum.inr (c :: run)) (by
          intro r hr c' hc'
          cases hr
          rcases List.mem_cons.1 hc' with rfl | hc'
          · exact hca
          · exact hst run rfl c' hc') t ht
        refine ⟨this.1, this.2.1, ?_⟩
        have h3 := this.2.2
        simp only [stPrefix, List.reverse_cons, List.append_assoc,
          List.singleton_append] at h3 ⊢
        exact h3
      · split at ht
        · have := ih (Sum.inl true) (by intro r hr; cases hr) t ht
          refine ⟨this.1, this.2.1, ?_⟩
          have h3 := this.2.2
          simp only [stPrefix, List.nil_append] at h3
          refine h3.trans ?_
          exact ⟨run.reverse ++ [c], [], by simp [stPrefix]⟩
        · rcases List.mem_append.1 ht with hemit | hrec
          · split at hemit
            · next hlen =>
              rw [List.mem_singleton] at hemit
              subst hemit
              refine ⟨by simpa using hlen, ?_, ?_⟩
              · intro c' hc'
                exact hst run rfl c' (List.mem_reverse.1 hc')
              · exact ⟨[], c :: rest, by simp [stPrefix]⟩
            · simp at hemit
          · have := ih (Sum.inl false) (by intro r hr; cases hr) t hrec
            refine ⟨this.1, this.2.1, ?_⟩
            have h3 := this.2.2
            simp only [stPrefix, List.nil_append] at h3
            refine h3.trans ?_
            exact ⟨run.reverse ++ [c], [], by simp [stPrefix]⟩

/-- A pending run of letters whose tail is still alphabetic, followed by a
word boundary, is emitted by the scan. -/
theorem scanStep_run (r' : List Char) :
    ∀ (racc post : List Char), (∀ c ∈ r', c.isAlpha = true) →
    3 ≤ racc.length + r'.length →
    (post = [] ∨ ∃ d rest2, post = d :: rest2 ∧ isWordChar d = false) →
    (racc.reverse ++ r') ∈ scanStep (r' ++ post) (Sum.inr racc) := by
  induction r' with
  | nil =>
    intro racc post halpha hlen hpost
    simp only [List.nil_append, List.append_nil]
    rcases hpost with rfl | ⟨d, rest2, rfl, hd⟩
    · simp only [scanStep]
      rw [if_pos (by simpa using hlen)]
      exact List.mem_singleton.2 rfl
    · have hda : d.isAlpha = false := by
        simp only [isWordChar, Bool.or_eq_false_iff] at hd
        exact hd.1.1
      simp only [scanStep]
      rw [if_neg (by simp [hda]), if_neg (by simp [hd])]
      rw [if_pos (by simpa using hlen)]
      exact List.mem_append_left _ (List.mem_singleton.2 rfl)
  | cons c r'' ih =>
    intro racc post halpha hlen hpost
    have hc : c.isAlpha = true := halpha c (List.mem_cons_self _ _)
    simp only [List.cons_append, scanStep]
    rw [if_pos (by simp [hc])]
    have := ih (c :: racc) post (fun c' hc' => halpha c' (List.mem_cons_of_mem _ hc'))
      (by simp only [List.length_cons] at hlen ⊢; omega) hpost
    simpa [List.append_assoc] using this

/-- A run of at least 3 letters at the start of the remaining input, followed
by a word boundary, is found when scanning from the boundary state. -/
theorem scanStep_start (run post : List Char)
    (halpha : ∀ c ∈ run, c.isAlpha = true) (hlen : 3 ≤ run.length)
    (hpost : post = [] ∨ ∃ d rest2, post = d :: rest2 ∧ isWordChar d = false) :
    run ∈ scanStep (run ++ post) (Sum.inl false) := by
  rcases run with _ | ⟨r₀, rs⟩
  · simp at hlen
  · have h0 : r₀.isAlpha = true := halpha _ (List.mem_cons_self _ _)
    simp only [List.cons_append, scanStep]
    rw [if_pos (by simp [h0])]
    have := scanStep_run rs [r₀] post (fun c hc => halpha c (List.mem_cons_of_mem _ hc))
      (by simp only [List.length_singleton, List.length_cons] at hlen ⊢; omega) hpost
    simpa using this

/-- The state reached after the scanner consumes one character. -/
def nextState (c : Char) : Bool ⊕ List Char → Bool ⊕ List Char
  | Sum.inl b => if c.isAlpha && !b then Sum.inr [c] else Sum.inl (isWordChar c)
  | Sum.inr run => if c.isAlpha then Sum.inr (c :: run)
      else if isWordChar c then Sum.inl true else Sum.inl false

/-- Tokens produced from the remaining input survive consuming a character. -/
theorem scanStep_mem_cons (c : Char) (rest : List Char) (st : Bool ⊕ List Char)
    (t : List Char) (ht : t ∈ scanStep rest (nextState c st)) :
    t ∈ scanStep (c :: rest) st := by
  cases st with
  | inl b =>
    by_cases h : (c.isAlpha && !b) = true
    · simp only [scanStep, nextState] at ht ⊢
      rw [if_pos h] at ht ⊢
      exact ht
    · simp only [scanStep, nextState] at ht ⊢
      rw [if_neg h] at ht ⊢
      exact ht
  | inr run =>
    by_cases h1 : c.isAlpha = true
    · simp only [scanStep, nextState] at ht ⊢
      rw [if_pos h1] at ht ⊢
      exact ht
    · by_cases h2 : isWordChar c = true
      · simp only [scanStep, nextState] at ht ⊢
        rw [if_neg h1, if_pos h2] at ht ⊢
        exact ht
      · simp only [scanStep, nextState] at ht ⊢
        rw [if_neg h1, if_neg h2] at ht ⊢
        exact List.mem_append_right _ ht

/-- A run of at least 3 letters delimited on the left by the start of the
text or a non-word character, and on the right by the end of the text or a
non-word character, is found by the scan. -/
theorem scanStep_complete (pre : List Char) :
    ∀ (st : Bool ⊕ List Char) (run post : List Char),
    (∀ c ∈ run, c.isAlpha = true) → 3 ≤ run.length →
    (post = [] ∨ ∃ d rest2, post = d :: rest2 ∧ isWordChar d = false) →
    ((pre = [] ∧ st = Sum.inl false) ∨
      (∃ c₀, pre.getLast? = some c₀ ∧ isWordChar c₀ = false)) →
    run ∈ scanStep (pre ++ run ++ post) st := by
  induction pre with
  | nil =>
    intro st run post halpha hlen hpost hcond
    rcases hcond with ⟨-, rfl⟩ | ⟨c₀, hlast, -⟩
    · simpa using scanStep_start run post halpha hlen hpost
    · simp at hlast
  | cons c pre' ih =>
    intro st run post halpha hlen hpost hcond
    rcases hcond with ⟨habs, -⟩ | ⟨c₀, hlast, hc₀⟩
    · exact absurd habs (by simp)
    rcases pre' with _ | ⟨p₁, pre''⟩
    · -- pre = [c], so c₀ = c and c is not a word character
      rw [List.getLast?_singleton] at hlast
      have hcc : c₀ = c := by simpa using hlast.symm
      subst hcc
      have hca : c₀.isAlpha = false := by
        simp only [isWordChar, Bool.or_eq_false_iff] at hc₀
        exact hc₀.1.1
      have hstate : nextState c₀ st = Sum.inl false := by
        cases st with
        | inl b => simp [nextState, hca, hc₀]
        | inr r => simp [nextState, hca, hc₀]
      have h2 : run ∈ scanStep (run ++ post) (nextState c₀ st) := by
        rw [hstate]
        exact scanStep_start run post halpha hlen hpost
      have := scanStep_mem_cons c₀ (run ++ post) st run h2
      simpa using this
    · -- pre = c :: p₁ :: pre''
      have hlast' : (p₁ :: pre'').getLast? = some c₀ := by
        rw [List.getLast?_cons_cons] at hlast
        exact hlast
      have hstep : run ∈ scanStep ((p₁ :: pre'') ++ run ++ post) (nextState c st) :=
        ih _ run post halpha hlen hpost (Or.inr ⟨c₀, hlast', hc₀⟩)
      have := scanStep_mem_cons c ((p₁ :: pre'') ++ run ++ post) st run hstep
      simpa [List.cons_append] using this

/-! ### Claim C6 (corrected) -/

/-- Counterexample to C6 as stated: in the single non-missing entry `abc1`
the text `abc` is a maximal alphabetic run of length 3 (it is at the start of
the text and followed by the non-letter `1`), yet no token at all is
extracted, because the trailing regex word boundary `\b` fails between `c`
and the digit `1`. -/
theorem maximal_run_adjacent_digit_not_tokenized :
    allTokens [some (("abc1").data)] = [] ∧
    pyLower (("abc1").data) = [] ++ (("abc").data) ++ ['1'] ∧
    (∀ c ∈ (("abc").data), c.isAlpha = true) ∧ 3 ≤ (("abc").data).length ∧
    ('1'.isAlpha = false) := by decide

/-- Claim C6 as amended: every token counted is a lowercase run of at least 3
letters occurring in a non-missing entry (missing entries are dropped first),
and conversely every run of at least 3 letters in a non-missing lowercased
entry that is delimited on each side by the text boundary or by a non-word
character (not a letter, digit, or underscore — so runs flanked by digits or
underscores are skipped) is counted. -/
theorem tokens_characterization :
    (∀ (rows : List (Option (List Char))) (t : List Char), t ∈ allTokens rows →
      3 ≤ t.length ∧ (∀ c ∈ t, c.isAlpha = true ∧ c.isUpper = false) ∧
      ∃ s, some s ∈ rows ∧ t <:+: pyLower s) ∧
    (∀ (rows : List (Option (List Char))) (s pre run post : List Char),
      some s ∈ rows → pyLower s = pre ++ run ++ post →
      (∀ c ∈ run, c.isAlpha = true) → 3 ≤ run.length →
      (pre = [] ∨ ∃ c₀, pre.getLast? = some c₀ ∧ isWordChar c₀ = false) →
      (post = [] ∨ ∃ d rest2, post = d :: rest2 ∧ isWordChar d = false) →
      run ∈ allTokens rows) := by
  constructor
  · intro rows t ht
    simp only [allTokens, List.mem_flatten, List.mem_map, List.mem_filterMap, id_eq] at ht
    obtain ⟨L, ⟨s, hs, rfl⟩, htL⟩ := ht
    obtain ⟨a, harow, haid⟩ := hs
    have hsound := scanStep_sound (pyLower s) (Sum.inl false) (by intro r hr; cases hr) t htL
    have hinf : t <:+: pyLower s := by simpa [stPrefix] using hsound.2.2
    refine ⟨hsound.1, ?_, s, by rwa [haid] at harow, hinf⟩
    intro c hc
    refine ⟨hsound.2.1 c hc, ?_⟩
    have hcmem : c ∈ pyLower s := hinf.subset hc
    simp only [pyLower, List.mem_map] at hcmem
    obtain ⟨c₀, -, rfl⟩ := hcmem
    exact char_toLower_isUpper_false c₀
  · intro rows s pre run post hrow heq halpha hlen hprecond hpost
    have hmem : run ∈ pyFindTokens (pyLower s) := by
      unfold pyFindTokens
      rw [heq]
      refine scanStep_complete pre (Sum.inl false) run post halpha hlen hpost ?_
      rcases hprecond with rfl | hc
      · exact Or.inl ⟨rfl, rfl⟩
      · exact Or.inr hc
    exact List.mem_flatten.2
      ⟨_, List.mem_map.2 ⟨s, List.mem_filterMap.2 ⟨some s, hrow, rfl⟩, rfl⟩, hmem⟩

/-- Witness for the amended C6 at a concrete input: the run `abc` of the
entry `abc def` is delimited by the text start and a space, so it is counted. -/
theorem tokens_characterization_witness :
    (("abc").data) ∈ allTokens [some (("abc def").data)] :=
  tokens_characterization.2 [some (("abc def").data)] (("abc def").data)
    [] (("abc").data) ((" def").data) (by decide) (by decide) (by decide) (by decide)
    (Or.inl rfl) (Or.inr ⟨' ', (("def").data), by decide, by decide⟩)

/-! ### Counting lemmas -/

/-- Lookup of a key's count in the association list (first match). -/
def lookupCount : List (List Char × Nat) → List Char → Nat
  | [], _ => 0
  | q :: rest, w => if q.1 = w then q.2 else lookupCount rest w

/-- One `Counter` update increments exactly the bumped key. -/
theorem lookupCount_bumpCount (l : List (List Char × Nat)) (w v : List Char) :
    lookupCount (bumpCount w l) v
      = if v = w then lookupCount l w + 1 else lookupCount l v := by
  induction l with
  | nil =>
    by_cases h : v = w
    · subst h
      simp [bumpCount, lookupCount]
    · simp [bumpCount, lookupCount, h, Ne.symm h]
  | cons q rest ih =>
    by_cases hqw : q.1 = w
    · by_cases hv : v = w
      · subst hv
        simp [bumpCount, lookupCount, hqw]
      · have hwv : ¬ (w = v) := fun h => hv h.symm
        simp [bumpCount, lookupCount, hqw, hv, hwv]
    · by_cases hv : v = w
      · subst hv
        simp [bumpCount, lookupCount, hqw, ih]
      · by_cases hqv : q.1 = v
        · simp [bumpCount, lookupCount, hqw, hqv, hv]
        · simp [bumpCount, lookupCount, hqw, hqv, hv, ih]

/-- The counting fold computes total frequencies. -/
theorem lookupCount_foldl (ts : List (List Char)) :
    ∀ (acc : List (List Char × Nat)) (v : List Char),
    lookupCount (ts.foldl (fun acc w => bumpCount w acc) acc) v
      = lookupCount acc v + ts.count v := by
  induction ts with
  | nil => intro acc v; simp
  | cons w ts' ih =>
    intro acc v
    simp only [List.foldl_cons]
    rw [ih (bumpCount w acc) v, lookupCount_bumpCount]
    by_cases h : v = w
    · subst h
      simp [List.count_cons]
      omega
    · simp [List.count_cons, h, fun hc : w = v => h hc.symm]

/-- Keys after a `Counter` update: unchanged if present, appended if new. -/
theorem keys_bumpCount (w : List Char) (l : List (List Char × Nat)) :
    (bumpCount w l).map Prod.fst
      = if w ∈ l.map Prod.fst then l.map Prod.fst else l.map Prod.fst ++ [w] := by
  induction l with
  | nil => simp [bumpCount]
  | cons q rest ih =>
    by_cases hqw : q.1 = w
    · simp [bumpCount, hqw]
    · by_cases hw : w ∈ rest.map Prod.fst
      · simp [bumpCount, hqw, ih, hw, Ne.symm hqw]
      · simp [bumpCount, hqw, ih, hw, Ne.symm hqw]

/-- A `Counter` update keeps keys distinct. -/
theorem keys_nodup_bumpCount (w : List Char) (l : List (List Char × Nat))
    (h : (l.map Prod.fst).Nodup) : ((bumpCount w l).map Prod.fst).Nodup := by
  rw [keys_bumpCount]
  split
  · exact h
  · next hw => simp [List.nodup_append, h, hw]

/-- Folding `Counter` updates keeps keys distinct. -/
theorem foldl_bump_keys_nodup (ts : List (List Char)) :
    ∀ acc : List (List Char × Nat), (acc.map Prod.fst).Nodup →
    (((ts.foldl (fun acc w => bumpCount w acc) acc)).map Prod.fst).Nodup := by
  induction ts with
  | nil => intro acc h; exact h
  | cons w ts' ih =>
    intro acc h
    exact ih _ (keys_nodup_bumpCount w acc h)

/-- The counted association list has distinct keys. -/
theorem countTokens_keys_nodup (ts : List (List Char)) :
    ((countTokens ts).map Prod.fst).Nodup :=
  foldl_bump_keys_nodup ts [] (by simp)

/-- With distinct keys, membership determines the lookup. -/
theorem lookupCount_eq_of_mem (l : List (List Char × Nat))
    (hnd : (l.map Prod.fst).Nodup) (w : List Char) (n : Nat) (h : (w, n) ∈ l) :
    lookupCount l w = n := by
  induction l with
  | nil => simp at h
  | cons q rest ih =>
    have hnd' := hnd
    rw [List.map_cons, List.nodup_cons] at hnd'
    rcases List.mem_cons.1 h with rfl | hmem
    · simp [lookupCount]
    · have hq : q.1 ≠ w := by
        intro hq
        exact hnd'.1 (hq ▸ List.mem_map.2 ⟨(w, n), hmem, rfl⟩)
      simp only [lookupCount, if_neg hq]
      exact ih hnd'.2 hmem

/-- Every entry of the counted association list carries the total frequency
of its key among the tokens. -/
theorem countTokens_count (ts : List (List Char)) (w : List Char) (n : Nat)
    (h : (w, n) ∈ countTokens ts) : n = ts.count w := by
  have h1 := lookupCount_eq_of_mem _ (countTokens_keys_nodup ts) w n h
  have h2 := lookupCount_foldl ts [] w
  simp only [countTokens] at h1
  rw [h1] at h2
  simpa [lookupCount] using h2

/-! ### Sorting lemmas -/

/-- Membership through stable insertion. -/
theorem mem_insertDesc (p x : List Char × Nat) (l : List (List Char × Nat)) :
    x ∈ insertDesc p l ↔ x = p ∨ x ∈ l := by
  induction l with
  | nil => simp [insertDesc]
  | cons q rest ih =>
    simp only [insertDesc]
    split
    · simp only [List.mem_cons, ih]
      tauto
    · simp [List.mem_cons]

/-- Stable insertion preserves the non-increasing-count invariant. -/
theorem pairwise_insertDesc (p : List Char × Nat) (l : List (List Char × Nat))
    (h : List.Pairwise (fun a b => b.2 ≤ a.2) l) :
    List.Pairwise (fun a b => b.2 ≤ a.2) (insertDesc p l) := by
  induction l with
  | nil => simp [insertDesc]
  | cons q rest ih =>
    rcases List.pairwise_cons.1 h with ⟨hq, hrest⟩
    simp only [insertDesc]
    split
    · next hlt =>
      refine List.pairwise_cons.2 ⟨?_, ih hrest⟩
      intro x hx
      rcases (mem_insertDesc p x rest).1 hx with rfl | hx
      · omega
      · exact hq x hx
    · next hge =>
      refine List.pairwise_cons.2 ⟨?_, h⟩
      intro x hx
      rcases List.mem_cons.1 hx with rfl | hx
      · omega
      · have := hq x hx
        omega

/-- The sorted list has non-increasing counts. -/
theorem sortDesc_pairwise (l : List (List Char × Nat)) :
    List.Pairwise (fun a b => b.2 ≤ a.2) (sortDesc l) := by
  induction l with
  | nil => simp [sortDesc]
  | cons p rest ih => exact pairwise_insertDesc p _ ih

/-- Sorting permutes nothing in or out. -/
theorem mem_sortDesc (l : List (List Char × Nat)) (x : List Char × Nat) :
    x ∈ sortDesc l ↔ x ∈ l := by
  induction l with
  | nil => simp [sortDesc]
  | cons p rest ih => simp [sortDesc, mem_insertDesc, ih]

/-- Stable insertion inserts before every entry of equal or smaller count, so
restricting to one count value gives back the cons. -/
theorem filter_insertDesc (p : List Char × Nat) (l : List (List Char × Nat)) (n : Nat) :
    (insertDesc p l).filter (fun q => q.2 == n)
      = (p :: l).filter (fun q => q.2 == n) := by
  induction l with
  | nil => simp [insertDesc]
  | cons q rest ih =>
    simp only [insertDesc]
    split
    · next hlt =>
      by_cases hp : p.2 = n
      · have hq : (q.2 == n) = false := by
          rw [beq_eq_false_iff_ne]
          omega
        simp only [List.filter_cons, hq, ih]
        simp [hp]
      · have hp' : (p.2 == n) = false := by
          rw [beq_eq_false_iff_ne]
          exact hp
        simp only [List.filter_cons, ih, hp']
        simp
    · rfl

/-- Stability of the sort: the entries of any fixed count keep their input
order (the insertion order of first occurrence in the counting pass). -/
theorem filter_sortDesc (l : List (List Char × Nat)) (n : Nat) :
    (sortDesc l).filter (fun q => q.2 == n) = l.filter (fun q => q.2 == n) := by
  induction l with
  | nil => simp [sortDesc]
  | cons p rest ih =>
    simp only [sortDesc, filter_insertDesc, List.filter_cons, ih]

/-! ### Claim C7 -/

/-- Claim C7: every pair in the output of `extract_potential_keywords` has a
word that is neither an existing keyword nor a stopword, a count strictly
greater than 1, and the count is the total frequency of the word over all
non-missing rows combined. -/
theorem suggestions_entries_valid (rows : List (Option (List Char)))
    (ek : List (List Char)) :
    ∀ q ∈ extract_potential_keywords rows ek,
      q.1 ∉ ek ∧ q.1 ∉ stopwords ∧ 1 < q.2 ∧ q.2 = (allTokens rows).count q.1 := by
  intro q hq
  have h1 : q ∈ sortDesc (suggestionList rows ek) :=
    List.take_subset _ _ hq
  have h2 : q ∈ suggestionList rows ek := (mem_sortDesc _ q).1 h1
  simp only [suggestionList, List.mem_filter] at h2
  obtain ⟨hmem, hcond⟩ := h2
  simp only [Bool.and_eq_true, Bool.not_eq_true', List.contains, List.elem_eq_mem,
    decide_eq_false_iff_not, decide_eq_true_eq] at hcond
  exact ⟨hcond.1.1, hcond.1.2, hcond.2, countTokens_count _ _ _ hmem⟩

/-- Witness for C7 on the spec's example rows: `backend` appears with total
count 3 and satisfies all retention conditions. -/
theorem suggestions_entries_valid_witness :
    ((("backend").data, 3) ∈ extract_potential_keywords
      [some (("Backend Engineer").data), some (("backend developer").data),
       some (("backend lead").data)] []) ∧
    ((("backend").data) ∉ ([] : List (List Char)) ∧ (("backend").data) ∉ stopwords ∧
      (1 : Nat) < 3 ∧ (3 : Nat) = (allTokens
        [some (("Backend Engineer").data), some (("backend developer").data),
         some (("backend lead").data)]).count (("backend").data)) :=
  ⟨by decide, suggestions_entries_valid _ _ ((("backend").data, 3)) (by decide)⟩

/-! ### Claim C8 -/

/-- Claim C8: the output of `extract_potential_keywords` has at most 25
entries and is ordered by non-increasing count; ties are broken stably — for
each count value, the sorted candidate list restricted to that count equals
the candidate list (whose order is the key-insertion order of the counting
pass) restricted to that count. -/
theorem suggestions_sorted_capped (rows : List (Option (List Char)))
    (ek : List (List Char)) :
    (extract_potential_keywords rows ek).length ≤ 25 ∧
    List.Pairwise (fun a b => b.2 ≤ a.2) (extract_potential_keywords rows ek) ∧
    ∀ n, (sortDesc (suggestionList rows ek)).filter (fun q => q.2 == n)
      = (suggestionList rows ek).filter (fun q => q.2 == n) := by
  refine ⟨?_, ?_, ?_⟩
  · simp [extract_potential_keywords]
  · exact (sortDesc_pairwise _).sublist (List.take_sublist _ _)
  · intro n
    exact filter_sortDesc _ n
